import Mathlib

/-!
Verification of the gondola ORM core: the `database/sql` value scanner
(`simpleScanner`, from the repository's sql driver backend), and the
reference resolver / query iterator whose behaviour is pinned down by
`orm/references_test.go` and the specification.

The scanner is embedded directly from the source.  The reference
resolver, topological table ordering and the query iterator are not part
of the repository's files here (only their tests are), so they are
modelled from the specification, as marked on each definition.
-/

/-! ## Tags (driver.Tag)

A field tag is a set of recognised option names; the scanner only ever
queries it with `Has` (for the `raw` option). -/

structure Tag where
  opts : List String
deriving DecidableEq

def Tag.Has (t : Tag) (name : String) : Bool :=
  t.opts.contains name

/-! ## The value scanner (embedded from the sql backend source)

`simpleScanner.Scan` switches on the dynamic type of the driver-supplied
source value.  Go's `reflect.Value` destination is modelled by its
reflection kind plus an identity; the effect of a successful scan is
recorded as a `Written` value, where `bytesCopied` stands for assigning a
freshly allocated copy of the source buffer and `bytesShared` for
assigning the source buffer itself (aliasing). -/

inductive Kind where
  | string
  | bytes
  | int
  | bool
  | time
  | other
deriving DecidableEq

inductive SrcVal where
  | null
  | int64 (n : Int)
  | bool (b : Bool)
  | bytes (data : List Nat)
  | str (s : String)
  | time (t : Int)
  | other (typeName : String)
deriving DecidableEq

inductive Written where
  | zero
  | setInt (n : Int)
  | setBool (b : Bool)
  | setString (s : String)
  | bytesNil
  | bytesCopied (data : List Nat)
  | bytesShared (data : List Nat)
  | timeValue (t : Int)
deriving DecidableEq

def stringOfBytes (data : List Nat) : String :=
  String.mk (data.map Char.ofNat)

structure OutVal where
  id : Nat
  kind : Kind
deriving DecidableEq

structure simpleScanner where
  Out : OutVal
  Tag : Tag
deriving DecidableEq

def simpleScanner.Scan (s : simpleScanner) (src : SrcVal) : Except String Written :=
  match src with
  | .null => .ok .zero
  | .int64 x => .ok (.setInt x)
  | .bool x => .ok (.setBool x)
  | .bytes x =>
    if s.Out.kind = Kind.string then
      .ok (.setString (stringOfBytes x))
    else
      if 0 < x.length then
        if !(s.Tag.Has "raw") then .ok (.bytesCopied x)
        else .ok (.bytesShared x)
      else .ok .bytesNil
  | .str x => .ok (.setString x)
  | .time x => .ok (.timeValue x)
  | .other typeName => .error ("can't scan value (" ++ typeName ++ ")")

/-! The bounded scanner reuse pool (`simpleScannerPool`, a buffered
channel of capacity 64) is modelled as a list of at most 64 scanners.
`Put` is the non-blocking send: it appends when there is room and
otherwise drops the scanner.  `Scanner` is the non-blocking receive: on
a pool hit it reuses the pooled instance with its `Out` and `Tag`
fields overwritten, and on a pool miss it allocates a fresh one. -/

def simpleScannerPoolCap : Nat := 64

def simpleScanner.Put (pool : List simpleScanner) (s : simpleScanner) :
    List simpleScanner :=
  if pool.length < simpleScannerPoolCap then pool ++ [s] else pool

def Scanner (pool : List simpleScanner) (val : OutVal) (tag : Tag) :
    simpleScanner × List simpleScanner :=
  match pool with
  | s :: rest => ({ s with Out := val, Tag := tag }, rest)
  | [] => ({ Out := val, Tag := tag }, [])

/-! ## Model registry and reference resolver

Modelled from the spec: the ORM core (model registry, reference
resolver, `Initialize`) is exercised by `orm/references_test.go` but its
implementation is not among the repository files here.  A registered
model carries a name, a table name and an ordered field list; each field
carries its underlying value type and the options parsed from its tag
(`primary_key`, `references=Target` or `references=Target(Field)`). -/

structure OrmField where
  name : String
  typ : String
  primaryKey : Bool
  references : Option (String × Option String)
deriving DecidableEq

structure OrmModel where
  name : String
  table : String
  fields : List OrmField
deriving DecidableEq

def modelNames (ms : List OrmModel) : List String :=
  ms.map OrmModel.name

/-- The names of the models referenced by `m`'s fields. -/
def refTargets (m : OrmModel) : List String :=
  m.fields.filterMap fun f => f.references.map Prod.fst

/-- Modelled from the spec: the target field of a reference is the
explicitly named field of the target model, or the target model's
primary key when the tag named no field. -/
def targetFieldOf (t : OrmModel) (tfield : Option String) : Option OrmField :=
  match tfield with
  | some tn => t.fields.find? fun g => g.name == tn
  | none => t.fields.find? fun g => g.primaryKey

/-- Whether a field's reference (if any) resolves: the target model is
registered and the target field exists. -/
def fieldResolves (ms : List OrmModel) (f : OrmField) : Bool :=
  match f.references with
  | none => true
  | some (target, tfield) =>
    match ms.find? (fun t => t.name == target) with
    | none => false
    | some t => (targetFieldOf t tfield).isSome

/-- Whether a field's reference (if any) resolves with matching
underlying value types on both ends. -/
def fieldTypeOk (ms : List OrmModel) (f : OrmField) : Bool :=
  match f.references with
  | none => true
  | some (target, tfield) =>
    match ms.find? (fun t => t.name == target) with
    | none => false
    | some t =>
      match targetFieldOf t tfield with
      | none => false
      | some tf => f.typ == tf.typ

def typeMismatchMessage (m : OrmModel) (f : OrmField) (t : OrmModel)
    (tf : OrmField) : String :=
  "field " ++ m.name ++ "." ++ f.name ++ " has type " ++ f.typ ++
    " but it references field " ++ t.name ++ "." ++ tf.name ++
    " of different type " ++ tf.typ

/-- Modelled from the spec: resolving one field's reference.  A missing
target model or target field fails naming the unresolved reference; a
resolved reference whose source and target types differ fails with the
type-mismatch error naming both fields. -/
def resolveField (ms : List OrmModel) (m : OrmModel) (f : OrmField) :
    Except String Unit :=
  match f.references with
  | none => .ok ()
  | some (target, tfield) =>
    match ms.find? (fun t => t.name == target) with
    | none => .error ("can't find model " ++ target ++ " referenced by " ++
        m.name ++ "." ++ f.name)
    | some t =>
      match targetFieldOf t tfield with
      | none => .error ("can't find field referenced by " ++ m.name ++ "." ++
          f.name ++ " in model " ++ target)
      | some tf =>
        if f.typ == tf.typ then .ok ()
        else .error (typeMismatchMessage m f t tf)

def resolveFields (ms : List OrmModel) (m : OrmModel) :
    List OrmField → Except String Unit
  | [] => .ok ()
  | f :: rest =>
    match resolveField ms m f with
    | .error e => .error e
    | .ok _ => resolveFields ms m rest

def resolveModels (ms : List OrmModel) : List OrmModel → Except String Unit
  | [] => .ok ()
  | m :: rest =>
    match resolveFields ms m m.fields with
    | .error e => .error e
    | .ok _ => resolveModels ms rest

/-! ### Topological table-creation order

Modelled from the spec: `Initialize` builds the dependency graph from
the resolved references and topologically sorts it, placing every
referenced table before its referrers.  A model whose reference targets
are all already placed (or are the model itself: a self-reference is
trivially ordered) is ready; each pass places every ready pending model,
and a pass that places nothing reports a cycle. -/

def modelReady (placed : List String) (m : OrmModel) : Bool :=
  (refTargets m).all fun r => r == m.name || placed.contains r

def topoLoop : Nat → List OrmModel → List OrmModel → Except String (List OrmModel)
  | _, acc, [] => .ok acc
  | 0, _, _ => .error "reference cycle detected"
  | fuel + 1, acc, pending =>
    let rdy := pending.filter (modelReady (modelNames acc))
    if rdy.isEmpty then .error "reference cycle detected"
    else topoLoop fuel (acc ++ rdy)
      (pending.filter fun m => !(modelReady (modelNames acc) m))

def topoSort (ms : List OrmModel) : Except String (List OrmModel) :=
  topoLoop ms.length [] ms

/-- Modelled from the spec: `Initialize` resolves every registered
model's references (failing atomically on the first resolution error)
and then produces the topologically sorted table-creation order. -/
def Initialize (ms : List OrmModel) : Except String (List OrmModel) :=
  match resolveModels ms ms with
  | .error e => .error e
  | .ok _ => topoSort ms

/-! ### The reference graph

Edge from referencing model to referenced model, by name; same-table
self-references are not edges (the spec orders them trivially).  The
graph is acyclic when no model reaches itself through one or more
edges. -/

/-- Every model in the list has each of its (non-self) reference
targets among the names of the models placed strictly before it. -/
def OrderedSoFar (order : List OrmModel) : Prop :=
  ∀ pre m suf, order = pre ++ m :: suf →
    ∀ r ∈ refTargets m, r ≠ m.name → r ∈ modelNames pre

def edgeB (ms : List OrmModel) (a b : String) : Bool :=
  ms.any fun m => m.name == a && (refTargets m).contains b && b != a

def Acyclic (ms : List OrmModel) : Prop :=
  ∀ a, ¬ Relation.TransGen (fun x y => edgeB ms x y = true) a a

/-- `Mentions msg part`: `part` occurs verbatim inside `msg`. -/
def Mentions (msg part : String) : Prop :=
  ∃ pre suf, msg = pre ++ part ++ suf

/-! ## Joined rows and the query iterator

Modelled from the spec: a query spans joined tables; each result row is
a list of per-table optional sub-rows (`none` is the unmatched branch of
an outer join).  The iterator holds the remaining rows and a sticky
error; `Next` takes one destination per joined table. -/

inductive Value where
  | null
  | int (n : Int)
  | str (s : String)
  | time (t : Int)
  | bool (b : Bool)
deriving DecidableEq

def Row : Type := List (String × Value)

instance : DecidableEq Row := by
  unfold Row
  infer_instance

def rowGet (r : Row) (fname : String) : Option Value :=
  (r.find? fun p => p.1 == fname).map Prod.snd

/-- The rows of `right` whose field `rf` holds the value `v`. -/
def matchingRows (right : List Row) (rf : String) (v : Option Value) : List Row :=
  right.filter fun b => rowGet b rf == v

/-- Modelled from the spec: a left join from `left` to `right` on
`left.lf = right.rf` emits one row per matching pair and, for a left row
without any match, one row whose right branch is absent. -/
def leftJoinRows (left right : List Row) (lf rf : String) :
    List (Row × Option Row) :=
  left.flatMap fun a =>
    let bs := matchingRows right rf (rowGet a lf)
    if bs.isEmpty then [(a, none)] else bs.map fun b => (a, some b)

def joinedRow (p : Row × Option Row) : List (Option Row) :=
  [some p.1, p.2]

/-- A possibly `Table|Field`-qualified name appearing in a query's
filters or sorts. -/
structure QualName where
  table : Option String
  field : String
deriving DecidableEq

structure OrmQuery where
  filterNames : List QualName
  sortNames : List QualName
  tables : List OrmModel
deriving DecidableEq

def hasField (m : OrmModel) (fname : String) : Bool :=
  m.fields.any fun f => f.name == fname

/-- Modelled from the spec: an unqualified filter/sort name is ambiguous
when at least two of the joined tables have a field of that name. -/
def ambiguousName (ts : List OrmModel) (n : QualName) : Bool :=
  n.table.isNone && decide (2 ≤ (ts.filter fun m => hasField m n.field).length)

def queryAmbiguous (q : OrmQuery) : Bool :=
  (q.filterNames ++ q.sortNames).any (ambiguousName q.tables)

def errUntypedNilPointer : String :=
  "untyped nil pointer passed to Next"

def errAmbiguousQuery : String :=
  "ambiguous field name in query, please qualify it as Table.Field"

structure Iter where
  query : OrmQuery
  rows : List (List (Option Row))
  err : Option String
deriving DecidableEq

def Iter.Err (it : Iter) : Option String :=
  it.err

/-- A caller-supplied destination for one joined table: an untyped nil
pointer (no type information at all), a typed nil pointer (skip
populating this table), or a real pointer. -/
inductive Dest where
  | untypedNil
  | typedNil
  | ptr
deriving DecidableEq

inductive DestResult where
  | skipped
  | noRow
  | value (r : Row)
deriving DecidableEq

def populateOne : Dest → Option Row → DestResult
  | Dest.typedNil, _ => DestResult.skipped
  | Dest.untypedNil, _ => DestResult.skipped
  | Dest.ptr, some r => DestResult.value r
  | Dest.ptr, none => DestResult.noRow

def populateRow (dests : List Dest) (row : List (Option Row)) :
    List DestResult :=
  (dests.zip row).map fun p => populateOne p.1 p.2

/-- Modelled from the spec: `Next` returns false immediately once the
sticky error is set; otherwise it reads the next row, rejecting an
untyped nil destination with the designated error and an unqualified
shared field name with the ambiguity error (both become the sticky
terminal error), and on success populates the destinations. -/
def Next (dests : List Dest) (it : Iter) :
    Bool × Iter × List DestResult :=
  match it.err with
  | some _ => (false, it, [])
  | none =>
    match it.rows with
    | [] => (false, it, [])
    | row :: rest =>
      if dests.contains Dest.untypedNil then
        (false, { it with err := some errUntypedNilPointer }, [])
      else if queryAmbiguous it.query then
        (false, { it with err := some errAmbiguousQuery }, [])
      else
        (true, { it with rows := rest }, populateRow dests row)

def runAux (dests : List Dest) :
    Nat → Iter → Nat × Iter × List (List DestResult)
  | 0, it => (0, it, [])
  | fuel + 1, it =>
    let s := Next dests it
    if s.1 then
      let r := runAux dests fuel s.2.1
      (r.1 + 1, r.2.1, s.2.2 :: r.2.2)
    else (0, s.2.1, [])

/-- Drive the iterator to exhaustion, counting the successful `Next`
calls and collecting each row's populated destinations. -/
def runIter (dests : List Dest) (it : Iter) :
    Nat × Iter × List (List DestResult) :=
  runAux dests (it.rows.length + 1) it

/-! ## Concrete instances from `orm/references_test.go`

The registered models of the reference tests: `Timestamp` (default
model), `Event` whose `Timestamp` field references it, and `BadEvent`
whose `Timestamp` field is an `int` while `Timestamp`'s primary key
`Id` is an `int64`. -/

def timestampModel : OrmModel :=
  { name := "Timestamp"
    table := "test_references_timestamp"
    fields := [
      { name := "Id", typ := "int64", primaryKey := true, references := none },
      { name := "Timestamp", typ := "time.Time", primaryKey := false,
        references := none }] }

def eventModel : OrmModel :=
  { name := "Event"
    table := "test_references_event"
    fields := [
      { name := "Id", typ := "int64", primaryKey := true, references := none },
      { name := "Timestamp", typ := "int64", primaryKey := false,
        references := some ("Timestamp", none) },
      { name := "Name", typ := "string", primaryKey := false,
        references := none }] }

def badEventModel : OrmModel :=
  { name := "BadEvent"
    table := "test_references_bad_event"
    fields := [
      { name := "Timestamp", typ := "int", primaryKey := false,
        references := some ("Timestamp", none) },
      { name := "Name", typ := "string", primaryKey := false,
        references := none }] }

/-- The good registry, with `Event` registered before `Timestamp` as in
the test. -/
def refRegistry : List OrmModel := [eventModel, timestampModel]

def badRegistry : List OrmModel := [badEventModel, timestampModel]

/-- The test's ambiguous query `Eq("Id", 1)` over the two joined
tables, both of which have an `Id` field. -/
def ambQuery : OrmQuery :=
  { filterNames := [⟨none, "Id"⟩], sortNames := [],
    tables := [timestampModel, eventModel] }

/-- The test's qualified query `Eq("Timestamp|Id", 1)` sorted by
`Event|Id`. -/
def qualQuery : OrmQuery :=
  { filterNames := [⟨some "Timestamp", "Id"⟩],
    sortNames := [⟨some "Event", "Id"⟩],
    tables := [timestampModel, eventModel] }

def tsRow1 : Row :=
  [("Id", Value.int 1), ("Timestamp", Value.time 100)]

def evRow (i : Int) (nm : String) : Row :=
  [("Id", Value.int i), ("Timestamp", Value.int 1), ("Name", Value.str nm)]

/-- A pool holding its full capacity of 64 scanners. -/
def fullPool : List simpleScanner :=
  List.replicate 64 ⟨⟨0, Kind.int⟩, ⟨[]⟩⟩

/-! # Theorems -/

/-- Helper: scanning a byte slice never fails, whatever the destination
kind, the tag and the slice. -/
theorem scan_bytes_isOk (s : simpleScanner) (x : List Nat) :
    ∃ w, s.Scan (SrcVal.bytes x) = Except.ok w := by
  simp only [simpleScanner.Scan]
  split
  · exact ⟨_, rfl⟩
  · split
    · split
      · exact ⟨_, rfl⟩
      · exact ⟨_, rfl⟩
    · exact ⟨_, rfl⟩

/-- C6: for a `[]byte` source, `simpleScanner.Scan` converts to text
when the destination is of string kind; for a byte-buffer destination it
assigns a fresh copy of a non-empty source by default, assigns the
source buffer itself when the field tag has `raw`, and normalizes an
empty source to a nil byte buffer. -/
theorem scan_byte_slice (s : simpleScanner) (x : List Nat) :
    (s.Out.kind = Kind.string →
      s.Scan (SrcVal.bytes x) = Except.ok (Written.setString (stringOfBytes x))) ∧
    (s.Out.kind = Kind.bytes → 0 < x.length → s.Tag.Has "raw" = false →
      s.Scan (SrcVal.bytes x) = Except.ok (Written.bytesCopied x)) ∧
    (s.Out.kind = Kind.bytes → 0 < x.length → s.Tag.Has "raw" = true →
      s.Scan (SrcVal.bytes x) = Except.ok (Written.bytesShared x)) ∧
    (s.Out.kind = Kind.bytes → x.length = 0 →
      s.Scan (SrcVal.bytes x) = Except.ok Written.bytesNil) := by
  refine ⟨?_, ?_, ?_, ?_⟩
  · intro hk
    simp [simpleScanner.Scan, hk]
  · intro hk hlen hraw
    simp [simpleScanner.Scan, hk, hlen, hraw]
  · intro hk hlen hraw
    simp [simpleScanner.Scan, hk, hlen, hraw]
  · intro hk hlen
    simp [simpleScanner.Scan, hk, hlen]

/-- C6 witness: the four byte-slice behaviours at concrete scanners. -/
theorem scan_byte_slice_witness :
    simpleScanner.Scan ⟨⟨0, Kind.string⟩, ⟨[]⟩⟩ (SrcVal.bytes [65]) =
      Except.ok (Written.setString (stringOfBytes [65])) ∧
    simpleScanner.Scan ⟨⟨0, Kind.bytes⟩, ⟨[]⟩⟩ (SrcVal.bytes [65]) =
      Except.ok (Written.bytesCopied [65]) ∧
    simpleScanner.Scan ⟨⟨0, Kind.bytes⟩, ⟨["raw"]⟩⟩ (SrcVal.bytes [65]) =
      Except.ok (Written.bytesShared [65]) ∧
    simpleScanner.Scan ⟨⟨0, Kind.bytes⟩, ⟨[]⟩⟩ (SrcVal.bytes []) =
      Except.ok Written.bytesNil :=
  ⟨(scan_byte_slice ⟨⟨0, Kind.string⟩, ⟨[]⟩⟩ [65]).1 rfl,
   (scan_byte_slice ⟨⟨0, Kind.bytes⟩, ⟨[]⟩⟩ [65]).2.1 rfl (by decide) (by decide),
   (scan_byte_slice ⟨⟨0, Kind.bytes⟩, ⟨["raw"]⟩⟩ [65]).2.2.1 rfl (by decide) (by decide),
   (scan_byte_slice ⟨⟨0, Kind.bytes⟩, ⟨[]⟩⟩ []).2.2.2 rfl rfl⟩

/-- C7: `simpleScanner.Scan` fails exactly on source values outside
nil/int64/bool/byte-slice/string/time; the failure message names the
offending value's type, and every succeeding case succeeds for every
destination, with no validation of the destination's type. -/
theorem scan_error_iff (s : simpleScanner) (src : SrcVal) :
    ((∃ e, s.Scan src = Except.error e) ↔ ∃ ty, src = SrcVal.other ty) ∧
    (∀ ty, src = SrcVal.other ty →
      s.Scan src = Except.error ("can't scan value (" ++ ty ++ ")") ∧
      Mentions ("can't scan value (" ++ ty ++ ")") ty) ∧
    ((∀ ty, src ≠ SrcVal.other ty) →
      ∀ s' : simpleScanner, ∃ w, s'.Scan src = Except.ok w) := by
  refine ⟨⟨?_, ?_⟩, ?_, ?_⟩
  · rintro ⟨e, he⟩
    cases src with
    | bytes x =>
      obtain ⟨w, hw⟩ := scan_bytes_isOk s x
      rw [hw] at he
      exact absurd he (by simp)
    | other ty => exact ⟨ty, rfl⟩
    | null => exact absurd he (by simp [simpleScanner.Scan])
    | int64 n => exact absurd he (by simp [simpleScanner.Scan])
    | bool b => exact absurd he (by simp [simpleScanner.Scan])
    | str v => exact absurd he (by simp [simpleScanner.Scan])
    | time t => exact absurd he (by simp [simpleScanner.Scan])
  · rintro ⟨ty, rfl⟩
    exact ⟨_, rfl⟩
  · rintro ty rfl
    exact ⟨rfl, ⟨"can't scan value (", ")", rfl⟩⟩
  · intro hne s'
    cases src with
    | bytes x => exact scan_bytes_isOk s' x
    | other ty => exact absurd rfl (hne ty)
    | null => exact ⟨_, rfl⟩
    | int64 n => exact ⟨_, rfl⟩
    | bool b => exact ⟨_, rfl⟩
    | str v => exact ⟨_, rfl⟩
    | time t => exact ⟨_, rfl⟩

/-- C7 witness: the failing case at `float64` and a succeeding case at
an `int64` source against a mismatched destination kind. -/
theorem scan_error_iff_witness :
    (simpleScanner.Scan ⟨⟨0, Kind.bool⟩, ⟨[]⟩⟩ (SrcVal.other "float64") =
      Except.error ("can't scan value (" ++ "float64" ++ ")") ∧
      Mentions ("can't scan value (" ++ "float64" ++ ")") "float64") ∧
    ∃ w, simpleScanner.Scan ⟨⟨0, Kind.string⟩, ⟨[]⟩⟩ (SrcVal.int64 7) =
      Except.ok w :=
  ⟨(scan_error_iff ⟨⟨0, Kind.bool⟩, ⟨[]⟩⟩ (SrcVal.other "float64")).2.1
      "float64" rfl,
   (scan_error_iff ⟨⟨0, Kind.bool⟩, ⟨[]⟩⟩ (SrcVal.int64 7)).2.2
      (by intro ty h; exact absurd h (by simp)) ⟨⟨0, Kind.string⟩, ⟨[]⟩⟩⟩

/-- C8: scanning a null source resets the destination to the zero value
of its type and returns no error, for every destination slot. -/
theorem scan_null_resets (s : simpleScanner) :
    s.Scan SrcVal.null = Except.ok Written.zero := rfl

/-- C9: the scanner pool is bounded at capacity 64; `Put` on a full pool
is a no-op that discards the scanner; after any `Put` on a legal pool
the bound still holds; and `Scanner` always returns a scanner whose
`Out` and `Tag` are the requested ones, both on a pool hit and on a pool
miss. -/
theorem scanner_pool_spec :
    simpleScannerPoolCap = 64 ∧
    (∀ pool s, simpleScannerPoolCap ≤ pool.length →
      simpleScanner.Put pool s = pool) ∧
    (∀ pool s, pool.length ≤ simpleScannerPoolCap →
      (simpleScanner.Put pool s).length ≤ simpleScannerPoolCap) ∧
    (∀ pool val tag, ((Scanner pool val tag).1).Out = val ∧
      ((Scanner pool val tag).1).Tag = tag) := by
  refine ⟨rfl, ?_, ?_, ?_⟩
  · intro pool s h
    simp [simpleScanner.Put, Nat.not_lt.mpr h]
  · intro pool s h
    simp only [simpleScanner.Put]
    split
    · simp only [List.length_append, List.length_cons, List.length_nil]
      omega
    · exact h
  · intro pool val tag
    cases pool with
    | nil => exact ⟨rfl, rfl⟩
    | cons a as => exact ⟨rfl, rfl⟩

/-- C9 witness: `Put` on a pool holding 64 scanners discards, `Put` on
an empty pool stays within the bound, and `Scanner` carries the
requested value and tag on a miss. -/
theorem scanner_pool_spec_witness :
    simpleScanner.Put fullPool ⟨⟨1, Kind.int⟩, ⟨[]⟩⟩ = fullPool ∧
    (simpleScanner.Put [] ⟨⟨1, Kind.int⟩, ⟨[]⟩⟩).length ≤ simpleScannerPoolCap ∧
    ((Scanner [] ⟨2, Kind.bool⟩ ⟨["raw"]⟩).1).Out = ⟨2, Kind.bool⟩ :=
  ⟨scanner_pool_spec.2.1 fullPool ⟨⟨1, Kind.int⟩, ⟨[]⟩⟩ (by decide),
   scanner_pool_spec.2.2.1 [] ⟨⟨1, Kind.int⟩, ⟨[]⟩⟩ (by decide),
   (scanner_pool_spec.2.2.2 [] ⟨2, Kind.bool⟩ ⟨["raw"]⟩).1⟩

/-- Helper: a set sticky error is terminal: `Next` returns false and
leaves the iterator unchanged, whatever the destinations. -/
theorem next_sticky (dests : List Dest) (it : Iter)
    (h : (it.Err).isSome = true) :
    (Next dests it).1 = false ∧ (Next dests it).2.1 = it := by
  cases hit : it.err with
  | none => simp [Iter.Err, hit] at h
  | some e => simp [Next, hit]

/-- Helper: a run with no error set, no untyped nil destination and an
unambiguous query consumes every row, counts them all, never sets the
error and populates each row's destinations. -/
theorem runAux_clean (dests : List Dest) (q : OrmQuery)
    (hnil : dests.contains Dest.untypedNil = false)
    (hamb : queryAmbiguous q = false) :
    ∀ (rows : List (List (Option Row))) (fuel : Nat), rows.length < fuel →
      runAux dests fuel ⟨q, rows, none⟩ =
        (rows.length, ⟨q, [], none⟩, rows.map (populateRow dests)) := by
  intro rows
  induction rows with
  | nil =>
    intro fuel hf
    match fuel, hf with
    | fuel + 1, _ => simp [runAux, Next]
  | cons row rest ih =>
    intro fuel hf
    match fuel, hf with
    | fuel + 1, hf =>
      have hr : rest.length < fuel := by
        simpa using Nat.lt_of_succ_lt_succ hf
      have hmem : Dest.untypedNil ∉ dests := by
        simpa using hnil
      simp [runAux, Next, hmem, hamb, ih fuel hr]

theorem runIter_clean (dests : List Dest) (q : OrmQuery)
    (rows : List (List (Option Row)))
    (hnil : dests.contains Dest.untypedNil = false)
    (hamb : queryAmbiguous q = false) :
    runIter dests ⟨q, rows, none⟩ =
      (rows.length, ⟨q, [], none⟩, rows.map (populateRow dests)) :=
  runAux_clean dests q hnil hamb rows (rows.length + 1) (Nat.lt_succ_self _)

/-- C3: a query over joined tables that share an unqualified filter/sort
field name fails when its row is read: `Next` returns false, the
ambiguity error (whose message says "ambiguous") becomes the iterator's
terminal error, and once any error is set `Next` always returns false
leaving the iterator unchanged. -/
theorem next_ambiguous_error (it : Iter) (dests : List Dest) (n : QualName)
    (herr : it.err = none) (hrows : it.rows ≠ [])
    (hnil : dests.contains Dest.untypedNil = false)
    (hn : n ∈ it.query.filterNames ++ it.query.sortNames)
    (hunq : n.table = none)
    (hshared : 2 ≤ ((it.query.tables).filter fun m => hasField m n.field).length) :
    (Next dests it).1 = false ∧
    ((Next dests it).2.1).Err = some errAmbiguousQuery ∧
    Mentions errAmbiguousQuery "ambiguous" ∧
    ∀ ds it₂, (it₂.Err).isSome = true →
      (Next ds it₂).1 = false ∧ (Next ds it₂).2.1 = it₂ := by
  have hq : queryAmbiguous it.query = true :=
    List.any_eq_true.mpr ⟨n, hn, by simp [ambiguousName, hunq, hshared]⟩
  obtain ⟨row, rest, hr⟩ := List.exists_cons_of_ne_nil hrows
  have hmem : Dest.untypedNil ∉ dests := by
    simpa using hnil
  refine ⟨?_, ?_, ⟨"", " field name in query, please qualify it as Table.Field", rfl⟩,
    fun ds it₂ h => next_sticky ds it₂ h⟩
  · simp [Next, herr, hr, hmem, hq]
  · simp [Next, Iter.Err, herr, hr, hmem, hq]

/-- C3 witness: the test's unqualified `Eq("Id", 1)` over the joined
`Timestamp` and `Event` tables, read over one row. -/
theorem next_ambiguous_error_witness :
    (Next [Dest.ptr, Dest.ptr]
      ⟨ambQuery, [[some tsRow1, some (evRow 1 "E1")]], none⟩).1 = false ∧
    ((Next [Dest.ptr, Dest.ptr]
      ⟨ambQuery, [[some tsRow1, some (evRow 1 "E1")]], none⟩).2.1).Err =
      some errAmbiguousQuery := by
  have h := next_ambiguous_error
    ⟨ambQuery, [[some tsRow1, some (evRow 1 "E1")]], none⟩
    [Dest.ptr, Dest.ptr] ⟨none, "Id"⟩ rfl (by simp) (by decide)
    (by decide) rfl (by decide)
  exact ⟨h.1, h.2.1⟩

/-- C4: supplying an untyped nil pointer destination makes `Next` fail
with the designated `errUntypedNilPointer`, an error distinct from the
ambiguity error, and `Next` returns false. -/
theorem next_untyped_nil_error (it : Iter) (dests : List Dest)
    (herr : it.err = none) (hrows : it.rows ≠ [])
    (hnil : dests.contains Dest.untypedNil = true) :
    (Next dests it).1 = false ∧
    ((Next dests it).2.1).Err = some errUntypedNilPointer ∧
    errUntypedNilPointer ≠ errAmbiguousQuery := by
  obtain ⟨row, rest, hr⟩ := List.exists_cons_of_ne_nil hrows
  have hmem : Dest.untypedNil ∈ dests := by
    simpa using hnil
  exact ⟨by simp [Next, herr, hr, hmem],
    by simp [Next, Iter.Err, herr, hr, hmem], by decide⟩

/-- C4 witness: the test's `iter.Next(nil, &event)` over a qualified
query with one row pending. -/
theorem next_untyped_nil_error_witness :
    (Next [Dest.untypedNil, Dest.ptr]
      ⟨qualQuery, [[some tsRow1, some (evRow 1 "E1")]], none⟩).1 = false ∧
    ((Next [Dest.untypedNil, Dest.ptr]
      ⟨qualQuery, [[some tsRow1, some (evRow 1 "E1")]], none⟩).2.1).Err =
      some errUntypedNilPointer := by
  have h := next_untyped_nil_error
    ⟨qualQuery, [[some tsRow1, some (evRow 1 "E1")]], none⟩
    [Dest.untypedNil, Dest.ptr] rfl (by simp) (by decide)
  exact ⟨h.1, h.2.1⟩

/-- C10: replacing the destination of one joined table by a typed nil
pointer skips populating that table: the run yields the same number of
rows as with a real destination, the error stays nil, and each row's
other destination is populated exactly as before — also when the
skipped table's branch did match (an inner-join row). -/
theorem next_typed_nil_skips (q : OrmQuery) (rows : List (List (Option Row)))
    (hamb : queryAmbiguous q = false) :
    (runIter [Dest.typedNil, Dest.ptr] ⟨q, rows, none⟩).1 =
      (runIter [Dest.ptr, Dest.ptr] ⟨q, rows, none⟩).1 ∧
    ((runIter [Dest.typedNil, Dest.ptr] ⟨q, rows, none⟩).2.1).Err = none ∧
    (runIter [Dest.typedNil, Dest.ptr] ⟨q, rows, none⟩).2.2 =
      rows.map (populateRow [Dest.typedNil, Dest.ptr]) ∧
    ∀ p0 p1 : Option Row,
      populateRow [Dest.typedNil, Dest.ptr] [p0, p1] =
        [DestResult.skipped, populateOne Dest.ptr p1] ∧
      populateRow [Dest.ptr, Dest.ptr] [p0, p1] =
        [populateOne Dest.ptr p0, populateOne Dest.ptr p1] := by
  have h1 := runIter_clean [Dest.typedNil, Dest.ptr] q rows (by decide) hamb
  have h2 := runIter_clean [Dest.ptr, Dest.ptr] q rows (by decide) hamb
  refine ⟨by rw [h1, h2], by rw [h1]; rfl, by rw [h1], ?_⟩
  intro p0 p1
  exact ⟨rfl, rfl⟩

/-- C10 witness: over the test's joined row where both branches
matched, the typed-nil run counts like the real run and skips only the
first table. -/
theorem next_typed_nil_skips_witness :
    (runIter [Dest.typedNil, Dest.ptr]
      ⟨qualQuery, [[some tsRow1, some (evRow 1 "E1")]], none⟩).1 =
      (runIter [Dest.ptr, Dest.ptr]
        ⟨qualQuery, [[some tsRow1, some (evRow 1 "E1")]], none⟩).1 ∧
    populateRow [Dest.typedNil, Dest.ptr] [some tsRow1, some (evRow 1 "E1")] =
      [DestResult.skipped, populateOne Dest.ptr (some (evRow 1 "E1"))] :=
  ⟨(next_typed_nil_skips qualQuery [[some tsRow1, some (evRow 1 "E1")]]
      (by decide)).1,
   ((next_typed_nil_skips qualQuery [[some tsRow1, some (evRow 1 "E1")]]
      (by decide)).2.2.2 (some tsRow1) (some (evRow 1 "E1"))).1⟩

/-- Helper: when every left row has at most one matching right row, the
left join has exactly one row per left row. -/
theorem leftJoin_length (A B : List Row) (lf rf : String)
    (huniq : ∀ a ∈ A, (matchingRows B rf (rowGet a lf)).length ≤ 1) :
    (leftJoinRows A B lf rf).length = A.length := by
  induction A with
  | nil => rfl
  | cons a A' ih =>
    have ha := huniq a (by simp)
    have ih' := ih fun x hx => huniq x (by simp [hx])
    simp only [leftJoinRows, List.flatMap_cons, List.length_append,
      List.length_cons] at ih' ⊢
    rw [ih']
    by_cases hbs : (matchingRows B rf (rowGet a lf)).isEmpty
    · simp [hbs]
      omega
    · have h0 : (matchingRows B rf (rowGet a lf)).length ≠ 0 := by
        intro h
        exact hbs (by simpa [List.isEmpty_iff, List.length_eq_zero] using h)
      have h1 : (matchingRows B rf (rowGet a lf)).length = 1 := by omega
      simp [hbs, h1]
      omega

/-- Helper: a left row without any match contributes the joined row
whose right branch is absent. -/
theorem leftJoin_mem_noMatch (A B : List Row) (lf rf : String) (a : Row)
    (ha : a ∈ A) (hm : matchingRows B rf (rowGet a lf) = []) :
    (a, (none : Option Row)) ∈ leftJoinRows A B lf rf := by
  simp only [leftJoinRows, List.mem_flatMap]
  exact ⟨a, ha, by simp [hm]⟩

/-- C5 counterexample: the claim's "exactly N iteration rows for every
pair of tables" fails: one referenced row joined against two matching
referencing rows yields 2 iteration rows, while N = 1. -/
theorem leftJoin_count_counterexample :
    (runIter [Dest.ptr, Dest.ptr]
      ⟨qualQuery,
        (leftJoinRows [tsRow1] [evRow 1 "E1", evRow 2 "E2"] "Id" "Timestamp").map
          joinedRow,
        none⟩).1 = 2 ∧
    [tsRow1].length = 1 ∧ (2 : Nat) ≠ 1 := by
  refine ⟨?_, rfl, by decide⟩
  decide

/-- C5 (amended): iterating a left join from the referenced table
yields one row per matching pair plus one per unmatched referenced row,
so exactly N rows when every referenced row has at most one matching
referencing row; a referenced row lacking a match joins to an absent
branch that populates the referencing destination as no-row, and the
iteration raises no error. -/
theorem leftJoin_unique_match (q : OrmQuery) (A B : List Row) (lf rf : String)
    (hamb : queryAmbiguous q = false)
    (huniq : ∀ a ∈ A, (matchingRows B rf (rowGet a lf)).length ≤ 1) :
    (runIter [Dest.ptr, Dest.ptr]
        ⟨q, (leftJoinRows A B lf rf).map joinedRow, none⟩).1 = A.length ∧
    ((runIter [Dest.ptr, Dest.ptr]
        ⟨q, (leftJoinRows A B lf rf).map joinedRow, none⟩).2.1).Err = none ∧
    ∀ a ∈ A, matchingRows B rf (rowGet a lf) = [] →
      joinedRow (a, none) ∈ (leftJoinRows A B lf rf).map joinedRow ∧
      populateRow [Dest.ptr, Dest.ptr] (joinedRow (a, none)) =
        [DestResult.value a, DestResult.noRow] := by
  have hcl := runIter_clean [Dest.ptr, Dest.ptr] q
    ((leftJoinRows A B lf rf).map joinedRow) (by decide) hamb
  refine ⟨?_, by rw [hcl]; rfl, ?_⟩
  · rw [hcl]
    simp [leftJoin_length A B lf rf huniq]
  · intro a ha hm
    exact ⟨List.mem_map_of_mem joinedRow (leftJoin_mem_noMatch A B lf rf a ha hm),
      rfl⟩

/-- C5 witness: the test's `Timestamp Id=2` scenario shape: one
referenced row, no matching referencing rows, one iteration row whose
referencing destination is no-row. -/
theorem leftJoin_unique_match_witness :
    (runIter [Dest.ptr, Dest.ptr]
        ⟨qualQuery, (leftJoinRows [tsRow1] [] "Id" "Timestamp").map joinedRow,
          none⟩).1 = 1 ∧
    populateRow [Dest.ptr, Dest.ptr] (joinedRow (tsRow1, none)) =
      [DestResult.value tsRow1, DestResult.noRow] := by
  have h := leftJoin_unique_match qualQuery [tsRow1] [] "Id" "Timestamp"
    (by decide) (fun a ha => by simp [matchingRows])
  exact ⟨h.1, (h.2.2 tsRow1 (by simp) (by decide)).2⟩

/-- Helper: a resolving, type-correct field passes `resolveField`. -/
theorem resolveField_ok (ms : List OrmModel) (m : OrmModel) (f : OrmField)
    (h1 : fieldResolves ms f = true) (h2 : fieldTypeOk ms f = true) :
    resolveField ms m f = Except.ok () := by
  simp only [fieldResolves] at h1
  simp only [fieldTypeOk] at h2
  simp only [resolveField]
  cases href : f.references with
  | none => simp only [href]
  | some p =>
    obtain ⟨target, tfield⟩ := p
    simp only [href] at h1 h2 ⊢
    cases hfind : ms.find? (fun t => t.name == target) with
    | none => simp only [hfind] at h1; exact absurd h1 (by simp)
    | some t =>
      simp only [hfind] at h1 h2 ⊢
      cases htf : targetFieldOf t tfield with
      | none => simp only [htf] at h1; exact absurd h1 (by simp)
      | some tf =>
        simp only [htf] at h2 ⊢
        simp [h2]

/-- Helper: a resolving field whose types mismatch makes `resolveField`
fail with the type-mismatch message. -/
theorem resolveField_mismatch (ms : List OrmModel) (m : OrmModel) (f : OrmField)
    (h1 : fieldResolves ms f = true) (h2 : fieldTypeOk ms f = false) :
    ∃ t tf, resolveField ms m f = Except.error (typeMismatchMessage m f t tf) := by
  simp only [fieldResolves] at h1
  simp only [fieldTypeOk] at h2
  simp only [resolveField]
  cases href : f.references with
  | none => simp only [href] at h2; exact absurd h2 (by simp)
  | some p =>
    obtain ⟨target, tfield⟩ := p
    simp only [href] at h1 h2 ⊢
    cases hfind : ms.find? (fun t => t.name == target) with
    | none => simp only [hfind] at h1; exact absurd h1 (by simp)
    | some t =>
      simp only [hfind] at h1 h2 ⊢
      cases htf : targetFieldOf t tfield with
      | none => simp only [htf] at h1; exact absurd h1 (by simp)
      | some tf =>
        simp only [htf] at h2 ⊢
        exact ⟨t, tf, by simp [h2]⟩

/-- Helper: all fields resolving and type-correct, `resolveFields`
succeeds. -/
theorem resolveFields_ok (ms : List OrmModel) (m : OrmModel) :
    ∀ fs : List OrmField,
      (∀ f ∈ fs, fieldResolves ms f = true) →
      (∀ f ∈ fs, fieldTypeOk ms f = true) →
      resolveFields ms m fs = Except.ok () := by
  intro fs
  induction fs with
  | nil => intro _ _; rfl
  | cons f0 rest ih =>
    intro h1 h2
    have hok := resolveField_ok ms m f0 (h1 f0 (by simp)) (h2 f0 (by simp))
    simp only [resolveFields, hok]
    exact ih (fun g hg => h1 g (by simp [hg])) (fun g hg => h2 g (by simp [hg]))

/-- Helper: when every field resolves but some field's types mismatch,
`resolveFields` fails with a type-mismatch message of one such field. -/
theorem resolveFields_mismatch (ms : List OrmModel) (m : OrmModel) :
    ∀ fs : List OrmField,
      (∀ f ∈ fs, fieldResolves ms f = true) →
      (∃ f ∈ fs, fieldTypeOk ms f = false) →
      ∃ e f t tf, resolveFields ms m fs = Except.error e ∧ f ∈ fs ∧
        fieldTypeOk ms f = false ∧ e = typeMismatchMessage m f t tf := by
  intro fs
  induction fs with
  | nil =>
    rintro _ ⟨f, hf, _⟩
    exact absurd hf (by simp)
  | cons f0 rest ih =>
    rintro hres ⟨f, hf, hbad⟩
    by_cases h0 : fieldTypeOk ms f0 = false
    · obtain ⟨t, tf, he⟩ := resolveField_mismatch ms m f0 (hres f0 (by simp)) h0
      exact ⟨_, f0, t, tf, by simp [resolveFields, he], by simp, h0, rfl⟩
    · have h0' : fieldTypeOk ms f0 = true := by
        cases hx : fieldTypeOk ms f0
        · exact absurd hx h0
        · rfl
      have hok := resolveField_ok ms m f0 (hres f0 (by simp)) h0'
      have hfrest : f ∈ rest := by
        rcases List.mem_cons.mp hf with h | h
        · exact absurd (h ▸ hbad) h0
        · exact h
      obtain ⟨e, f', t, tf, hrun, hmem, hbad', hmsg⟩ :=
        ih (fun g hg => hres g (by simp [hg])) ⟨f, hfrest, hbad⟩
      exact ⟨e, f', t, tf, by simp [resolveFields, hok, hrun], by simp [hmem],
        hbad', hmsg⟩

/-- Helper: `resolveModels` succeeds when every field of every model
resolves with matching types. -/
theorem resolveModels_ok (ms : List OrmModel) :
    ∀ l : List OrmModel,
      (∀ m ∈ l, ∀ f ∈ m.fields,
        fieldResolves ms f = true ∧ fieldTypeOk ms f = true) →
      resolveModels ms l = Except.ok () := by
  intro l
  induction l with
  | nil => intro _; rfl
  | cons m0 rest ih =>
    intro h
    have hfs := resolveFields_ok ms m0 m0.fields
      (fun f hf => (h m0 (by simp) f hf).1) (fun f hf => (h m0 (by simp) f hf).2)
    simp only [resolveModels, hfs]
    exact ih fun m hm f hf => h m (by simp [hm]) f hf

/-- Helper: `resolveModels` fails with a type-mismatch message when all
references resolve but some field's types mismatch. -/
theorem resolveModels_mismatch (ms : List OrmModel) :
    ∀ l : List OrmModel,
      (∀ m ∈ l, ∀ f ∈ m.fields, fieldResolves ms f = true) →
      (∃ m ∈ l, ∃ f ∈ m.fields, fieldTypeOk ms f = false) →
      ∃ e m f t tf, resolveModels ms l = Except.error e ∧ m ∈ l ∧
        f ∈ m.fields ∧ fieldTypeOk ms f = false ∧
        e = typeMismatchMessage m f t tf := by
  intro l
  induction l with
  | nil =>
    rintro _ ⟨m, hm, _⟩
    exact absurd hm (by simp)
  | cons m0 rest ih =>
    rintro hres ⟨m, hm, f, hf, hbad⟩
    by_cases hb : ∃ g ∈ m0.fields, fieldTypeOk ms g = false
    · obtain ⟨e, g, t, tf, hrun, hgmem, hgbad, hmsg⟩ :=
        resolveFields_mismatch ms m0 m0.fields (hres m0 (by simp)) hb
      exact ⟨e, m0, g, t, tf, by simp [resolveModels, hrun], by simp, hgmem,
        hgbad, hmsg⟩
    · have hall : ∀ g ∈ m0.fields, fieldTypeOk ms g = true := by
        intro g hg
        cases hx : fieldTypeOk ms g
        · exact absurd ⟨g, hg, hx⟩ hb
        · rfl
      have hok := resolveFields_ok ms m0 m0.fields (hres m0 (by simp)) hall
      have hmrest : m ∈ rest := by
        rcases List.mem_cons.mp hm with h | h
        · exact absurd ⟨f, h ▸ hf, hbad⟩ hb
        · exact h
      obtain ⟨e, m', f', t, tf, hrun, hmem, hfmem, hbad', hmsg⟩ :=
        ih (fun x hx => hres x (by simp [hx])) ⟨m, hmrest, f, hf, hbad⟩
      exact ⟨e, m', f', t, tf, by simp [resolveModels, hok, hrun],
        by simp [hmem], hfmem, hbad', hmsg⟩

/-- Helper: the type-mismatch message mentions the word "type". -/
theorem mentions_type (m : OrmModel) (f : OrmField) (t : OrmModel)
    (tf : OrmField) : Mentions (typeMismatchMessage m f t tf) "type" := by
  have hseg : ∀ y : String,
      " has " ++ ("type" ++ (" " ++ y)) = " has type " ++ y := by
    intro y
    rw [← String.append_assoc, ← String.append_assoc]
    rfl
  refine ⟨"field " ++ m.name ++ "." ++ f.name ++ " has ",
    " " ++ f.typ ++ " but it references field " ++ t.name ++ "." ++ tf.name ++
      " of different type " ++ tf.typ, ?_⟩
  simp only [typeMismatchMessage, String.append_assoc]
  rw [hseg]

/-- Helper: the type-mismatch message names the source field. -/
theorem mentions_srcField (m : OrmModel) (f : OrmField) (t : OrmModel)
    (tf : OrmField) : Mentions (typeMismatchMessage m f t tf) f.name := by
  refine ⟨"field " ++ m.name ++ ".",
    " has type " ++ f.typ ++ " but it references field " ++ t.name ++ "." ++
      tf.name ++ " of different type " ++ tf.typ, ?_⟩
  simp [typeMismatchMessage, String.append_assoc]

/-- Helper: the type-mismatch message names the target field. -/
theorem mentions_tgtField (m : OrmModel) (f : OrmField) (t : OrmModel)
    (tf : OrmField) : Mentions (typeMismatchMessage m f t tf) tf.name := by
  refine ⟨"field " ++ m.name ++ "." ++ f.name ++ " has type " ++ f.typ ++
      " but it references field " ++ t.name ++ ".",
    " of different type " ++ tf.typ, ?_⟩
  simp [typeMismatchMessage, String.append_assoc]

/-- C2: when every reference resolves but some source field's underlying
type differs from its target field's, `Initialize` fails with a
resolution error that is the type-mismatch message of such a pair, a
message mentioning "type" and naming both fields. -/
theorem initialize_type_mismatch (ms : List OrmModel)
    (hres : ∀ m ∈ ms, ∀ f ∈ m.fields, fieldResolves ms f = true)
    (hbad : ∃ m ∈ ms, ∃ f ∈ m.fields, fieldTypeOk ms f = false) :
    ∃ e m f t tf, Initialize ms = Except.error e ∧ m ∈ ms ∧ f ∈ m.fields ∧
      fieldTypeOk ms f = false ∧ e = typeMismatchMessage m f t tf ∧
      Mentions e "type" ∧ Mentions e f.name ∧ Mentions e tf.name := by
  obtain ⟨e, m, f, t, tf, hrun, hm, hf, hb, hmsg⟩ :=
    resolveModels_mismatch ms ms hres hbad
  exact ⟨e, m, f, t, tf, by simp [Initialize, hrun], hm, hf, hb, hmsg,
    hmsg ▸ mentions_type m f t tf, hmsg ▸ mentions_srcField m f t tf,
    hmsg ▸ mentions_tgtField m f t tf⟩

/-- C2 witness: the test's `BadEvent` (whose `Timestamp` field is an
`int`) registered with `Timestamp` (whose primary key is an `int64`). -/
theorem initialize_type_mismatch_witness :
    ∃ e m f t tf, Initialize badRegistry = Except.error e ∧
      m ∈ badRegistry ∧ f ∈ m.fields ∧ fieldTypeOk badRegistry f = false ∧
      e = typeMismatchMessage m f t tf ∧ Mentions e "type" ∧
      Mentions e f.name ∧ Mentions e tf.name :=
  initialize_type_mismatch badRegistry (by decide) (by decide)

/-- Helper: a rank function strictly decreasing along edges certifies
acyclicity of the reference graph. -/
theorem acyclic_of_rank (ms : List OrmModel) (f : String → Nat)
    (h : ∀ a b, edgeB ms a b = true → f b < f a) : Acyclic ms := by
  intro a hcyc
  have hmono : ∀ x y,
      Relation.TransGen (fun u v => edgeB ms u v = true) x y → f y < f x := by
    intro x y hxy
    induction hxy with
    | single h1 => exact h _ _ h1
    | tail _ h2 ih => exact lt_trans (h _ _ h2) ih
  exact lt_irrefl (f a) (hmono a a hcyc)

/-- Helper: an edge names a registered model as its source, one of that
model's reference targets as its destination, and is never a self
loop. -/
theorem edgeB_elim (ms : List OrmModel) (a b : String)
    (h : edgeB ms a b = true) :
    ∃ m ∈ ms, m.name = a ∧ b ∈ refTargets m ∧ b ≠ a := by
  simp only [edgeB, List.any_eq_true] at h
  obtain ⟨m, hm, hp⟩ := h
  simp only [Bool.and_eq_true, beq_iff_eq, bne_iff_ne] at hp
  refine ⟨m, hm, hp.1.1, ?_, hp.2⟩
  simpa using hp.1.2

/-- Helper: walking a graph in which every vertex of `l` has an
out-edge into `l` must eventually close a cycle. -/
theorem cycle_walk (E : String → String → Prop) (l : List String)
    (hout : ∀ a ∈ l, ∃ b ∈ l, E a b) :
    ∀ (fuel : Nat) (visited : List String) (c : String),
      c ∈ l → visited.Nodup → c ∉ visited → (∀ v ∈ visited, v ∈ l) →
      (∀ v ∈ visited, Relation.TransGen E v c) →
      l.length ≤ fuel + visited.length →
      ∃ d, Relation.TransGen E d d := by
  intro fuel
  induction fuel with
  | zero =>
    intro visited c hc hnd hcv hsub _ hlen
    exfalso
    have hsub' : (c :: visited) ⊆ l := by
      intro x hx
      rcases List.mem_cons.mp hx with h | h
      · exact h ▸ hc
      · exact hsub x h
    have hnd' : (c :: visited).Nodup := List.nodup_cons.mpr ⟨hcv, hnd⟩
    have hle := (List.subperm_of_subset hnd' hsub').length_le
    simp only [List.length_cons] at hle
    omega
  | succ fuel ih =>
    intro visited c hc hnd hcv hsub hvis hlen
    obtain ⟨b, hbl, hEb⟩ := hout c hc
    by_cases hbc : b = c
    · exact ⟨c, Relation.TransGen.single (hbc ▸ hEb)⟩
    · by_cases hbv : b ∈ visited
      · exact ⟨b, Relation.TransGen.trans (hvis b hbv)
          (Relation.TransGen.single hEb)⟩
      · refine ih (c :: visited) b hbl (List.nodup_cons.mpr ⟨hcv, hnd⟩)
          ?_ ?_ ?_ ?_
        · simp only [List.mem_cons, not_or]
          exact ⟨hbc, hbv⟩
        · intro v hv
          rcases List.mem_cons.mp hv with h | h
          · exact h ▸ hc
          · exact hsub v h
        · intro v hv
          rcases List.mem_cons.mp hv with h | h
          · exact h ▸ Relation.TransGen.single hEb
          · exact Relation.TransGen.tail (hvis v h) hEb
        · simp only [List.length_cons]
          omega

/-- Helper: a nonempty vertex list in which every vertex has an
out-edge into the list yields a cycle. -/
theorem cycle_of_total_out (E : String → String → Prop) (l : List String)
    (hne : l ≠ []) (hout : ∀ a ∈ l, ∃ b ∈ l, E a b) :
    ∃ d, Relation.TransGen E d d := by
  obtain ⟨a, rest, rfl⟩ := List.exists_cons_of_ne_nil hne
  exact cycle_walk E (a :: rest) hout (a :: rest).length [] a (by simp)
    List.nodup_nil (by simp) (by simp) (by simp) (by simp)

/-- Helper: each reference target of a model whose fields all resolve
is the name of a registered model. -/
theorem refTargets_mem_names (ms : List OrmModel) (m : OrmModel)
    (h : ∀ f ∈ m.fields, fieldResolves ms f = true) :
    ∀ r ∈ refTargets m, r ∈ modelNames ms := by
  intro r hr
  simp only [refTargets, List.mem_filterMap] at hr
  obtain ⟨f, hf, hmap⟩ := hr
  cases href : f.references with
  | none => rw [href] at hmap; exact absurd hmap (by simp)
  | some p =>
    obtain ⟨target, tfield⟩ := p
    rw [href] at hmap
    have htr : target = r := by simpa using hmap
    have h1 := h f hf
    simp only [fieldResolves, href] at h1
    cases hfind : ms.find? (fun t => t.name == target) with
    | none => simp only [hfind] at h1; exact absurd h1 (by simp)
    | some t =>
      have ht : t ∈ ms := List.mem_of_find?_eq_some hfind
      have hname : t.name = target := by simpa using List.find?_some hfind
      exact (htr ▸ hname) ▸ List.mem_map_of_mem OrmModel.name ht

/-- Helper: a ready model's non-self reference targets are all among
the placed names. -/
theorem ready_targets (placed : List String) (m : OrmModel)
    (h : modelReady placed m = true) :
    ∀ r ∈ refTargets m, r ≠ m.name → r ∈ placed := by
  intro r hr hne
  have := List.all_eq_true.mp h r hr
  simpa [hne] using this

theorem orderedSoFar_nil : OrderedSoFar [] := by
  intro pre m suf heq
  exact absurd heq (by simp)

/-- Helper: appending models whose non-self targets are all named in
`acc` preserves the order invariant. -/
theorem orderedSoFar_append (acc rdy : List OrmModel)
    (hacc : OrderedSoFar acc)
    (hrdy : ∀ m ∈ rdy, ∀ r ∈ refTargets m, r ≠ m.name → r ∈ modelNames acc) :
    OrderedSoFar (acc ++ rdy) := by
  intro pre m suf heq r hr hne
  rcases List.append_eq_append_iff.mp heq with ⟨a, ha1, ha2⟩ | ⟨c, hc1, hc2⟩
  · have hm : m ∈ rdy := by
      rw [ha2]
      exact List.mem_append_right a (by simp)
    have hracc := hrdy m hm r hr hne
    rw [ha1]
    simp only [modelNames, List.map_append, List.mem_append]
    exact Or.inl hracc
  · cases c with
    | nil =>
      have haccpre : acc = pre := by simpa using hc1
      have hm : m ∈ rdy := by
        have hrd : m :: suf = rdy := by simpa using hc2
        rw [← hrd]
        simp
      exact haccpre ▸ hrdy m hm r hr hne
    | cons m' c' =>
      have hmm : m' = m ∧ c' ++ rdy = suf := by
        have := hc2
        simp only [List.cons_append, List.cons.injEq] at this
        exact ⟨this.1.symm, this.2.symm⟩
      exact hacc pre m c' (by rw [hc1, hmm.1]) r hr hne

/-- Helper: with all references resolving into the registry and an
acyclic graph, a pass over a nonempty pending list always finds a ready
model. -/
theorem topo_progress (ms acc pending : List OrmModel)
    (hall : ∀ m ∈ ms, ∀ r ∈ refTargets m, r ∈ modelNames ms)
    (hacyc : Acyclic ms)
    (hperm : (acc ++ pending).Perm ms)
    (hne : pending ≠ [])
    (hstall : ∀ m ∈ pending, modelReady (modelNames acc) m = false) :
    False := by
  have hout : ∀ a ∈ modelNames pending,
      ∃ b ∈ modelNames pending, edgeB ms a b = true := by
    intro a ha
    simp only [modelNames, List.mem_map] at ha
    obtain ⟨m, hm, rfl⟩ := ha
    have hnr := hstall m hm
    have hex : ∃ r ∈ refTargets m,
        (r == m.name || (modelNames acc).contains r) = false := by
      by_contra hcon
      push_neg at hcon
      have hall2 : modelReady (modelNames acc) m = true := by
        simp only [modelReady]
        apply List.all_eq_true.mpr
        intro r hr
        cases hx : (r == m.name || (modelNames acc).contains r) with
        | false => exact absurd hx (hcon r hr)
        | true => rfl
      rw [hall2] at hnr
      exact Bool.noConfusion hnr
    obtain ⟨r, hr, hrf⟩ := hex
    simp only [Bool.or_eq_false_iff] at hrf
    have hrne : r ≠ m.name := by simpa using hrf.1
    have hrnacc : r ∉ modelNames acc := by simpa using hrf.2
    have hmms : m ∈ ms := hperm.subset (List.mem_append_right acc hm)
    have hrms : r ∈ modelNames ms := hall m hmms r hr
    have hrpend : r ∈ modelNames pending := by
      have hpn : (modelNames (acc ++ pending)).Perm (modelNames ms) :=
        hperm.map OrmModel.name
      have hin : r ∈ modelNames (acc ++ pending) := hpn.mem_iff.mpr hrms
      simp only [modelNames, List.map_append, List.mem_append] at hin
      rcases hin with h | h
      · exact absurd h hrnacc
      · exact h
    refine ⟨r, hrpend, List.any_eq_true.mpr ⟨m, hmms, ?_⟩⟩
    simp only [Bool.and_eq_true, beq_iff_eq, bne_iff_ne]
    refine ⟨⟨?_, ?_⟩, hrne⟩
    · simp
    · simpa using hr
  have hnames_ne : modelNames pending ≠ [] := by
    rcases pending with _ | ⟨p, ps⟩
    · exact absurd rfl hne
    · simp [modelNames]
  obtain ⟨d, hd⟩ := cycle_of_total_out (fun x y => edgeB ms x y = true)
    (modelNames pending) hnames_ne hout
  exact hacyc d hd

/-- Helper: the topological pass loop succeeds on an acyclic resolved
registry, producing a permutation of the models that satisfies the
order invariant. -/
theorem topoLoop_ok (ms : List OrmModel)
    (hall : ∀ m ∈ ms, ∀ r ∈ refTargets m, r ∈ modelNames ms)
    (hacyc : Acyclic ms) :
    ∀ (fuel : Nat) (acc pending : List OrmModel),
      pending.length ≤ fuel →
      (acc ++ pending).Perm ms →
      OrderedSoFar acc →
      ∃ order, topoLoop fuel acc pending = Except.ok order ∧
        order.Perm ms ∧ OrderedSoFar order := by
  intro fuel
  induction fuel with
  | zero =>
    intro acc pending hlen hperm hord
    cases pending with
    | nil => exact ⟨acc, rfl, by simpa using hperm, hord⟩
    | cons p ps => simp at hlen
  | succ fuel ih =>
    intro acc pending hlen hperm hord
    cases pending with
    | nil => exact ⟨acc, rfl, by simpa using hperm, hord⟩
    | cons p ps =>
      have hne : p :: ps ≠ [] := by simp
      have hstall : ¬ ((p :: ps).filter
          (modelReady (modelNames acc))).isEmpty = true := by
        intro hempty
        refine topo_progress ms acc (p :: ps) hall hacyc hperm hne ?_
        intro m hm
        have hnil := List.isEmpty_iff.mp hempty
        have hnot := List.filter_eq_nil_iff.mp hnil m hm
        cases hx : modelReady (modelNames acc) m with
        | false => rfl
        | true => exact absurd hx hnot
      have hfsplit : ((p :: ps).filter (modelReady (modelNames acc))).length +
          ((p :: ps).filter fun m => !(modelReady (modelNames acc) m)).length =
          (p :: ps).length := by
        have := (List.filter_append_perm
          (fun m => modelReady (modelNames acc) m) (p :: ps)).length_eq
        simpa [List.length_append] using this
      have hrpos : 0 < ((p :: ps).filter
          (modelReady (modelNames acc))).length := by
        rcases hxs : (p :: ps).filter (modelReady (modelNames acc)) with _ | ⟨a, t⟩
        · rw [hxs] at hstall
          simp at hstall
        · simp
      have hlen' : ((p :: ps).filter
          fun m => !(modelReady (modelNames acc) m)).length ≤ fuel := by
        simp only [List.length_cons] at hlen hfsplit
        omega
      have hperm' : ((acc ++ (p :: ps).filter (modelReady (modelNames acc))) ++
          ((p :: ps).filter fun m => !(modelReady (modelNames acc) m))).Perm
          ms := by
        have hfp := List.filter_append_perm
          (fun m => modelReady (modelNames acc) m) (p :: ps)
        rw [List.append_assoc]
        exact (hfp.append_left acc).trans hperm
      have hord' : OrderedSoFar
          (acc ++ (p :: ps).filter (modelReady (modelNames acc))) := by
        refine orderedSoFar_append acc _ hord ?_
        intro m hm
        exact ready_targets (modelNames acc) m (List.of_mem_filter hm)
      obtain ⟨order, h1, h2, h3⟩ := ih
        (acc ++ (p :: ps).filter (modelReady (modelNames acc)))
        ((p :: ps).filter fun m => !(modelReady (modelNames acc) m))
        hlen' hperm' hord'
      refine ⟨order, ?_, h2, h3⟩
      simp only [topoLoop]
      rw [if_neg hstall]
      exact h1

/-- C1: for every registry whose references all resolve with matching
types and whose reference graph is acyclic — whatever the registration
order — `Initialize` succeeds with a table-creation order that lists
every registered model once and places every referenced model strictly
before each model referencing it. -/
theorem initialize_orders_references (ms : List OrmModel)
    (hres : ∀ m ∈ ms, ∀ f ∈ m.fields,
      fieldResolves ms f = true ∧ fieldTypeOk ms f = true)
    (hacyc : Acyclic ms) :
    ∃ order, Initialize ms = Except.ok order ∧ order.Perm ms ∧
      ∀ pre m suf, order = pre ++ m :: suf →
        ∀ r ∈ refTargets m, r ≠ m.name → r ∈ modelNames pre := by
  have hok := resolveModels_ok ms ms hres
  have hall : ∀ m ∈ ms, ∀ r ∈ refTargets m, r ∈ modelNames ms :=
    fun m hm => refTargets_mem_names ms m fun f hf => (hres m hm f hf).1
  obtain ⟨order, h1, h2, h3⟩ := topoLoop_ok ms hall hacyc ms.length [] ms
    (le_refl _) (by simp) orderedSoFar_nil
  exact ⟨order, by simp [Initialize, hok, topoSort, h1], h2, h3⟩

/-- C1 witness: the test's registry with `Event` registered before the
`Timestamp` model it references. -/
theorem initialize_orders_references_witness :
    (∀ m ∈ refRegistry, ∀ f ∈ m.fields,
      fieldResolves refRegistry f = true ∧
        fieldTypeOk refRegistry f = true) ∧
    Acyclic refRegistry ∧
    ∃ order, Initialize refRegistry = Except.ok order ∧
      order.Perm refRegistry ∧
      ∀ pre m suf, order = pre ++ m :: suf →
        ∀ r ∈ refTargets m, r ≠ m.name → r ∈ modelNames pre := by
  have hres : ∀ m ∈ refRegistry, ∀ f ∈ m.fields,
      fieldResolves refRegistry f = true ∧
        fieldTypeOk refRegistry f = true := by decide
  have hacyc : Acyclic refRegistry := by
    refine acyclic_of_rank refRegistry
      (fun s => if s = "Event" then 1 else 0) ?_
    intro a b hab
    obtain ⟨m, hm, hname, hb, hne⟩ := edgeB_elim refRegistry a b hab
    simp only [refRegistry, List.mem_cons, List.not_mem_nil, or_false] at hm
    rcases hm with rfl | rfl
    · have hbt : b = "Timestamp" := by
        have : refTargets eventModel = ["Timestamp"] := rfl
        rw [this] at hb
        simpa using hb
      rw [← hname, hbt]
      simp [eventModel]
    · have : refTargets timestampModel = [] := rfl
      rw [this] at hb
      exact absurd hb (by simp)
  exact ⟨hres, hacyc, initialize_orders_references refRegistry hres hacyc⟩
